import Mathlib

/-!
Verification of the NRG (numerical renormalization group) iterative
diagonalization-and-truncation engine of the nrgljubljana code base.

The definitions below are a shallow embedding of the C++ sources:
* `highest_retained_energy`, `truncate_prepare` — nrg-general.h (Truncator)
* `do_diag` retry loop — nrg-general.h
* `after_diag` phase ordering — nrg-general.h
* `Algo_CFSls` / `Algo_CFSgt` (OLD and OPTIMIZED paths)
* `DiagInfo::save/load`, `Eigen::save/load`, `DensMatElements::save/load`
* `calc_ZnD`, `grand_canonical_Z`, `check_trace_rho`, `num_equal`/`my_fcmp`

Machine doubles are modelled as exact rationals (for the combinatorial /
control-flow claims) or exact reals (for claims involving `exp`).
-/

namespace Nrg

/-! ### Truncation: `highest_retained_energy` (nrg-general.h:1276-1303)

Parameters `P.keepenergy`, `P.keep`, `P.keepmin`, `P.safeguard`,
`P.safeguardmax` of the truncation decision. -/

structure TruncParams where
  keepenergy : ℚ
  keep : ℕ
  keepmin : ℕ
  safeguard : ℚ
  safeguardmax : ℕ
deriving DecidableEq

/-- `std::clamp(v, lo, hi)` for naturals: `v < lo ? lo : (hi < v ? hi : v)`. -/
def clampNat (v lo hi : ℕ) : ℕ :=
  if v < lo then lo else if hi < v then hi else v

/-- The pre-safeguard value of `nrkeep` in `highest_retained_energy`:
if `P.keepenergy <= 0.0` use `P.keep`, otherwise
`std::clamp(1 + count_if(energies, e <= keepenergy*unscale), P.keepmin, P.keep)`. -/
def nrkeepA (P : TruncParams) (unscale : ℚ) (es : List ℚ) : ℕ :=
  if P.keepenergy ≤ 0 then P.keep
  else clampNat (1 + es.countP (fun e => decide (e ≤ P.keepenergy * unscale)))
    P.keepmin P.keep

/-- The safeguard `while` loop of `highest_retained_energy`, fuelled.
While `nrkeep < totalnumber && energies[nrkeep] - energies[nrkeep-1] <= safeguard
&& cnt_extra < safeguardmax`, increment `nrkeep` and `cnt_extra`. -/
def sgLoopF (es : List ℚ) (sg : ℚ) (sgmax : ℕ) : ℕ → ℕ → ℕ → ℕ × ℕ
  | 0, nrkeep, cnt => (nrkeep, cnt)
  | fuel + 1, nrkeep, cnt =>
    if nrkeep < es.length ∧ es.getD nrkeep 0 - es.getD (nrkeep - 1) 0 ≤ sg ∧ cnt < sgmax then
      sgLoopF es sg sgmax fuel (nrkeep + 1) (cnt + 1)
    else (nrkeep, cnt)

/-- The safeguard loop; `es.length` fuel always suffices because the loop
condition requires `nrkeep < es.length`. -/
def sgLoop (es : List ℚ) (sg : ℚ) (sgmax : ℕ) (nrkeep cnt : ℕ) : ℕ × ℕ :=
  sgLoopF es sg sgmax (es.length - nrkeep) nrkeep cnt

/-- `highest_retained_energy` (nrg-general.h:1276-1303), instrumented to return
`(nrkeep, cnt_extra, Emax)`: the final clamped `nrkeep`, the number of extra
states added by the safeguard, and the returned energy `energies[nrkeep-1]`.
The safeguard loop runs only `if (P.safeguard > 0.0)`. -/
def highest_retained (P : TruncParams) (unscale : ℚ) (es : List ℚ) : ℕ × ℕ × ℚ :=
  let n0 := nrkeepA P unscale es
  let r := if 0 < P.safeguard then sgLoop es P.safeguard P.safeguardmax n0 0 else (n0, 0)
  let nf := clampNat r.1 1 es.length
  (nf, r.2, es.getD (nf - 1) 0)

/-- The value actually returned by the C++ `highest_retained_energy`. -/
def highest_retained_energy (P : TruncParams) (unscale : ℚ) (es : List ℚ) : ℚ :=
  (highest_retained P unscale es).2.2

/-! ### Subspace spectra: class `Eigen` (nrg-general.h:145-231) -/

/-- Model of class `Eigen`: computed eigenvalues `value_orig`, the matrix
column dimension `dim` (`matrix.size2()`), shifted eigenvalues `value_zero`,
and the truncation count `nrpost` (`none` encodes the C++ value `-1`). -/
structure EigenM where
  value_orig : List ℚ
  dim : ℕ
  value_zero : List ℚ
  nrpost : Option ℕ
deriving DecidableEq

def EigenM.getnrcomputed (e : EigenM) : ℕ := e.value_orig.length

def EigenM.getnrstored (e : EigenM) : ℕ := e.value_zero.length

/-- `getnrpost() = (nrpost == -1 ? getnrcomputed() : nrpost)`; `getnrkept()` is
an alias. -/
def EigenM.getnrkept (e : EigenM) : ℕ := e.nrpost.getD e.getnrcomputed

def EigenM.getdim (e : EigenM) : ℕ := e.dim

/-- `Eigen::truncate_prepare_subspace(nrpost_)`. -/
def EigenM.truncate_prepare_subspace (e : EigenM) (n : ℕ) : EigenM :=
  { e with nrpost := some n }

/-- `DiagInfo::sorted_energies()`: concatenate all `value_zero` vectors and
sort ascending. The invariant keys play no role here, so a `DiagInfo` is
modelled as the list of its per-subspace spectra. -/
def sorted_energies (diag : List EigenM) : List ℚ :=
  (diag.flatMap EigenM.value_zero).mergeSort (fun a b => decide (a ≤ b))

/-- `truncate_prepare` (nrg-general.h:1320-1336): compute `Emax`, then per
subspace record `nrpost` as the number of eigenvalues `<= Emax`, except that
when `step.last() && P.keep_all_states_in_last_step()` all computed states are
kept. -/
def truncate_prepare (lastKeepAll : Bool) (P : TruncParams) (unscale : ℚ)
    (diag : List EigenM) : List EigenM :=
  let Emax := highest_retained_energy P unscale (sorted_energies diag)
  diag.map fun e => e.truncate_prepare_subspace
    (if lastKeepAll then e.getnrcomputed
     else e.value_zero.countP (fun x => decide (x ≤ Emax)))

/-- `truncate_stats.nrkept`: total number of kept states over all subspaces. -/
def nrkept (diag : List EigenM) : ℕ := (diag.map EigenM.getnrkept).sum

/-- The insufficient-states test of `truncate_prepare`: some subspace has
`getnrkept() == getnrcomputed() && value_zero(getnrcomputed()-1) != Emax &&
getnrcomputed() < getdim()`; if it holds, `NotEnough` is thrown. -/
def notEnoughB (diag : List EigenM) (Emax : ℚ) : Bool :=
  diag.any fun e =>
    decide (e.getnrkept = e.getnrcomputed) &&
    !(decide (e.value_zero.getD (e.getnrcomputed - 1) 0 = Emax)) &&
    decide (e.getnrcomputed < e.getdim)

/-! ### The `do_diag` retry loop (nrg-general.h:1731-1766)

`do_diag` repeatedly runs the diagonalisation followed by `truncate_prepare`;
when `truncate_prepare` throws `NotEnough` it either gives up (keeping the
partial result) when `!(step.nrg() && P.restart)`, or retries with
`diagratio = min(diagratio * P.restartfactor, 1.0)`.  The diagonalisation plus
truncation preparation at a given `diagratio` is abstracted as a function
`diagf`, and the `NotEnough` condition as a predicate `ne` on its result.
`last` records whether the step is the final one; the exit decision of the
C++ catch handler does not consult it. -/

def do_diag {α : Type} (last nrgRun restart : Bool) (restartfactor : ℚ)
    (diagf : ℚ → α) (ne : α → Bool) : ℕ → ℚ → α
  | 0, r => diagf r
  | fuel + 1, r =>
    let d := diagf r
    if ne d then
      if nrgRun && restart then
        do_diag last nrgRun restart restartfactor diagf ne fuel
          (min (r * restartfactor) 1)
      else d
    else d

/-! ### Phase ordering of one NRG step (nrg-general.h:1731-1816)

`do_diag` and `after_diag` are modelled as the ordered list of their phases,
to settle temporal claims about when truncation happens relative to the
`AllSteps` (density-matrix) store. -/

inductive PhaseT where
  | diagonalise
  | findGroundstate
  | subtractEgs
  | truncatePrepare
  | totalEnergyUpdate
  | calcAbsEnergies
  | saveTransformations
  | basicMeasurements
  | splitBlocks
  | recalcOpsAll
  | spectralAll
  | truncatePerform
  | dmStore
  | recalcIrreducible
  | recalcOpsKept
  | spectralKept
  | spectralNone
  | sumrules
deriving DecidableEq

/-- Phases of `do_diag` in execution order (the successful pass through the
`try` block): diagonalise (or load), find the ground state, subtract `Egs`,
prepare the truncation.  The truncation counts are recorded here and nowhere
else. -/
def do_diag_phases : List PhaseT :=
  [.diagonalise, .findGroundstate, .subtractEgs, .truncatePrepare]

/-- Phases of `after_diag` in execution order, with the branch conditions as
arguments: `nrgRun` = first pass, `dmFlag` = `P.dm`, `zbw` = `P.ZBW`,
`doAll`/`doKept`/`doNone` = the recalculation-strategy selectors,
`last` = `step.last()`, `sumRules` = `P.checksumrules`. -/
def after_diag_phases (nrgRun dmFlag zbw doAll doKept doNone last sumRules : Bool) :
    List PhaseT :=
  [PhaseT.totalEnergyUpdate] ++
  (if nrgRun then
    [PhaseT.calcAbsEnergies] ++
    (if dmFlag then [PhaseT.saveTransformations] else []) ++
    [PhaseT.basicMeasurements]
   else []) ++
  (if !zbw then [PhaseT.splitBlocks] else []) ++
  (if doAll then [PhaseT.recalcOpsAll, PhaseT.spectralAll] else []) ++
  (if !zbw then [PhaseT.truncatePerform] else []) ++
  [PhaseT.dmStore] ++
  (if !last then [PhaseT.recalcIrreducible] else []) ++
  (if doKept then [PhaseT.recalcOpsKept, PhaseT.spectralKept] else []) ++
  (if doNone then [PhaseT.spectralNone] else []) ++
  (if sumRules then [PhaseT.sumrules] else [])

/-! ### CFS spectral kernels (`Algo_CFSls::calc`, `Algo_CFSgt::calc`)

Both the OLD reference implementation and the OPTIMIZED one (real scalars) are
embedded as functions from the call data to the list of `(energy, weight)`
pairs passed to `cs->add`, in emission order.  `cexp` stands for the C
library `exp`; matrices are total functions with the loop bounds passed
explicitly: `stored1/storedp = diagI1/diagIp.getnrstored()`,
`dim1/dimp = rho.at(I1)/rho.at(Ip).size1()`. -/

def sumRange (n : ℕ) (f : ℕ → ℚ) : ℚ := ((List.range n).map f).sum

/-- Entry `(i,j)` of `gemm(NoTrans, NoTrans, 1.0, a, b, 0.0, _)` with inner
dimension `k`. -/
def gemmNN (a b : ℕ → ℕ → ℚ) (k : ℕ) (i j : ℕ) : ℚ :=
  sumRange k (fun c => a i c * b c j)

/-- Entry `(i,j)` of `gemm(Trans, NoTrans, 1.0, a, b, 0.0, _)` with inner
dimension `k` (first factor transposed). -/
def gemmTN (a b : ℕ → ℕ → ℚ) (k : ℕ) (i j : ℕ) : ℚ :=
  sumRange k (fun c => a c i * b c j)

/-- OLD `Algo_CFSls::calc`: on the last step a Lehmann-style double loop over
stored states; otherwise the iii-term, looping over discarded `rl` of `I1`
and kept `rk` of `Ip`, with the inner sum over `rkp` accumulated explicitly. -/
def Algo_CFSls_OLD (last : Bool) (scale scT Zft sign spinfactor : ℚ) (cexp : ℚ → ℚ)
    (vz1 vzp : List ℚ) (stored1 storedp dim1 dimp : ℕ)
    (op1 op2 rhoP : ℕ → ℕ → ℚ) : List (ℚ × ℚ) :=
  if last then
    (List.range stored1).flatMap (fun r1 =>
      (List.range storedp).map (fun rp =>
        (scale * (vz1.getD r1 0 - vzp.getD rp 0),
         spinfactor / Zft * op1 r1 rp * op2 r1 rp *
           cexp (-(vz1.getD r1 0) * scT) * (-sign))))
  else
    ((List.range stored1).drop dim1).flatMap (fun rl =>
      (List.range dimp).map (fun rk =>
        (scale * (vz1.getD rl 0 - vzp.getD rk 0),
         spinfactor * op1 rl rk *
           sumRange dimp (fun rkp => op2 rl rkp * rhoP rkp rk) * (-sign))))

/-- OPTIMIZED `Algo_CFSls::calc` (real scalars): identical last-step branch;
otherwise guarded by `if (dimA && dimp)` and using the precomputed product
`op2II_m_rho = op2II[:, 0..dimp) * rhoNIp` from a single `gemm` call. -/
def Algo_CFSls_OPT (last : Bool) (scale scT Zft sign spinfactor : ℚ) (cexp : ℚ → ℚ)
    (vz1 vzp : List ℚ) (stored1 storedp dim1 dimp : ℕ)
    (op1 op2 rhoP : ℕ → ℕ → ℚ) : List (ℚ × ℚ) :=
  if last then
    (List.range stored1).flatMap (fun r1 =>
      (List.range storedp).map (fun rp =>
        (scale * (vz1.getD r1 0 - vzp.getD rp 0),
         spinfactor / Zft * op1 r1 rp * op2 r1 rp *
           cexp (-(vz1.getD r1 0) * scT) * (-sign))))
  else
    if stored1 ≠ 0 ∧ dimp ≠ 0 then
      ((List.range stored1).drop dim1).flatMap (fun rl =>
        (List.range dimp).map (fun rk =>
          (scale * (vz1.getD rl 0 - vzp.getD rk 0),
           spinfactor * op1 rl rk * gemmNN op2 rhoP dimp rl rk * (-sign))))
    else []

/-- OLD `Algo_CFSgt::calc`: on the last step the Lehmann sum weighted by
`exp(-Ep*scT)`; otherwise the ii-term, looping over kept `rk` of `I1` and
discarded `rl` of `Ip`. -/
def Algo_CFSgt_OLD (last : Bool) (scale scT Zft spinfactor : ℚ) (cexp : ℚ → ℚ)
    (vz1 vzp : List ℚ) (stored1 storedp dim1 dimp : ℕ)
    (op1 op2 rho1 : ℕ → ℕ → ℚ) : List (ℚ × ℚ) :=
  if last then
    (List.range stored1).flatMap (fun r1 =>
      (List.range storedp).map (fun rp =>
        (scale * (vz1.getD r1 0 - vzp.getD rp 0),
         spinfactor / Zft * op1 r1 rp * op2 r1 rp * cexp (-(vzp.getD rp 0) * scT))))
  else
    (List.range dim1).flatMap (fun rk =>
      ((List.range storedp).drop dimp).map (fun rl =>
        (scale * (vz1.getD rk 0 - vzp.getD rl 0),
         spinfactor * sumRange dim1 (fun rkp => op1 rkp rl * rho1 rkp rk) *
           op2 rk rl)))

/-- OPTIMIZED `Algo_CFSgt::calc` (real scalars): identical last-step branch;
otherwise guarded by `if (dim1 && dimB)` and using
`op1II_m_rho = rhoNI1^T * op1II[0..dim1, :]` from a single `gemm` call. -/
def Algo_CFSgt_OPT (last : Bool) (scale scT Zft spinfactor : ℚ) (cexp : ℚ → ℚ)
    (vz1 vzp : List ℚ) (stored1 storedp dim1 dimp : ℕ)
    (op1 op2 rho1 : ℕ → ℕ → ℚ) : List (ℚ × ℚ) :=
  if last then
    (List.range stored1).flatMap (fun r1 =>
      (List.range storedp).map (fun rp =>
        (scale * (vz1.getD r1 0 - vzp.getD rp 0),
         spinfactor / Zft * op1 r1 rp * op2 r1 rp * cexp (-(vzp.getD rp 0) * scT))))
  else
    if dim1 ≠ 0 ∧ storedp ≠ 0 then
      (List.range dim1).flatMap (fun rk =>
        ((List.range storedp).drop dimp).map (fun rl =>
          (scale * (vz1.getD rk 0 - vzp.getD rl 0),
           spinfactor * gemmTN rho1 op1 dim1 rk rl * op2 rk rl)))
    else []

/-! ### Persistence (`Eigen::save/load`, `DiagInfo::save/load`,
`DensMatElements::save/load`, nrg-general.h:217-230, 309-336, 403-432)

The binary boost archive is modelled as a list of typed tokens.  An `Invar`
(typed integer tuple) is a `List ℤ`; machine doubles are exact rationals. -/

inductive Tok where
  | nat : ℕ → Tok
  | int : ℤ → Tok
  | q : ℚ → Tok
  | invar : List ℤ → Tok
deriving DecidableEq

/-- Serialization view of one `Eigen` object: exactly the fields written by
`Eigen::save` in order: `value_orig`, `matrix`, `value_zero`, `nrpost`,
`absenergy`, `absenergyG`, `absenergyN`. -/
structure EigenS where
  value_orig : List ℚ
  matrix : List (List ℚ)
  value_zero : List ℚ
  nrpost : ℤ
  absenergy : List ℚ
  absenergyG : List ℚ
  absenergyN : List ℚ
deriving DecidableEq

/-- Encoding of a `ublas::vector`: its size followed by its elements. -/
def encVec (v : List ℚ) : List Tok := Tok.nat v.length :: v.map Tok.q

def decVecAux : ℕ → List Tok → Option (List ℚ × List Tok)
  | 0, ts => some ([], ts)
  | n + 1, Tok.q x :: ts =>
    (decVecAux n ts).bind fun p => some (x :: p.1, p.2)
  | _ + 1, _ => none

def decVec (ts : List Tok) : Option (List ℚ × List Tok) :=
  match ts with
  | Tok.nat n :: ts => decVecAux n ts
  | _ => none

/-- Modelled from the spec: the low-level matrix helper `::save(oa, m)` used
by `Eigen::save` is declared in a header that is not part of src/; the spec
describes the dump as "eigenvector matrix (row-major)".  The encoding writes
the two dimensions followed by the row-major entries. -/
def encMat (m : List (List ℚ)) : List Tok :=
  Tok.nat m.length :: Tok.nat (m.headD []).length :: (m.flatMap id).map Tok.q

def decRows : ℕ → ℕ → List Tok → Option (List (List ℚ) × List Tok)
  | 0, _, ts => some ([], ts)
  | n + 1, k, ts =>
    (decVecAux k ts).bind fun p =>
      (decRows n k p.2).bind fun q => some (p.1 :: q.1, q.2)

/-- Modelled from the spec: inverse of `encMat` (`::load(ia, m)`). -/
def decMat (ts : List Tok) : Option (List (List ℚ) × List Tok) :=
  match ts with
  | Tok.nat n :: Tok.nat k :: ts => decRows n k ts
  | _ => none

/-- `Eigen::save`: `oa << value_orig; ::save(oa, matrix); oa << value_zero
<< nrpost << absenergy << absenergyG << absenergyN;`. -/
def encEigen (e : EigenS) : List Tok :=
  encVec e.value_orig ++ encMat e.matrix ++ encVec e.value_zero ++
  [Tok.int e.nrpost] ++ encVec e.absenergy ++ encVec e.absenergyG ++
  encVec e.absenergyN

/-- `Eigen::load`, reading the fields back in the same order. -/
def decEigen (ts : List Tok) : Option (EigenS × List Tok) :=
  (decVec ts).bind fun vo =>
  (decMat vo.2).bind fun m =>
  (decVec m.2).bind fun vz =>
  match vz.2 with
  | Tok.int np :: ts' =>
    (decVec ts').bind fun ae =>
    (decVec ae.2).bind fun aeG =>
    (decVec aeG.2).bind fun aeN =>
    some (⟨vo.1, m.1, vz.1, np, ae.1, aeG.1, aeN.1⟩, aeN.2)
  | _ => none

/-- `DiagInfo::save`: the number of subspaces, then for each entry the invariant
followed by the `Eigen` payload, in map (key-sorted) order. -/
def encDiagInfo (entries : List (List ℤ × EigenS)) : List Tok :=
  Tok.nat entries.length ::
    entries.flatMap (fun p => Tok.invar p.1 :: encEigen p.2)

def decDiagEntries : ℕ → List Tok → Option (List (List ℤ × EigenS) × List Tok)
  | 0, ts => some ([], ts)
  | n + 1, Tok.invar i :: ts =>
    (decEigen ts).bind fun e =>
      (decDiagEntries n e.2).bind fun r => some ((i, e.1) :: r.1, r.2)
  | _ + 1, _ => none

def decDiagInfo (ts : List Tok) : Option (List (List ℤ × EigenS) × List Tok) :=
  match ts with
  | Tok.nat n :: ts => decDiagEntries n ts
  | _ => none

/-- `DensMatElements::save`: the number of subspaces, then for each entry the
invariant followed by the dense matrix. -/
def encDensMat (entries : List (List ℤ × List (List ℚ))) : List Tok :=
  Tok.nat entries.length ::
    entries.flatMap (fun p => Tok.invar p.1 :: encMat p.2)

def decDensEntries : ℕ → List Tok → Option (List (List ℤ × List (List ℚ)) × List Tok)
  | 0, ts => some ([], ts)
  | n + 1, Tok.invar i :: ts =>
    (decMat ts).bind fun m =>
      (decDensEntries n m.2).bind fun r => some ((i, m.1) :: r.1, r.2)
  | _ + 1, _ => none

def decDensMat (ts : List Tok) : Option (List (List ℤ × List (List ℚ)) × List Tok) :=
  match ts with
  | Tok.nat n :: ts => decDensEntries n ts
  | _ => none

/-- Insertion of `(k, v)` into the ordered association list representing a
`std::map` with strict-weak-order `lt`; on an equivalent key the mapped value
is replaced (`operator[]` followed by assignment). -/
def insertSorted {V : Type} (lt : List ℤ → List ℤ → Bool) (k : List ℤ) (v : V) :
    List (List ℤ × V) → List (List ℤ × V)
  | [] => [(k, v)]
  | (k', v') :: t =>
    if lt k k' then (k, v) :: (k', v') :: t
    else if lt k' k then (k', v') :: insertSorted lt k v t
    else (k', v) :: t

/-- Rebuilding the `std::map` from the entries in file order, as the load
loop `(*this)[inv] = ...` does. -/
def mapFromEntries {V : Type} (lt : List ℤ → List ℤ → Bool)
    (l : List (List ℤ × V)) : List (List ℤ × V) :=
  l.foldl (fun m p => insertSorted lt p.1 p.2 m) []

/-- I/O error kinds; each carries the file name (abstracted as a number),
matching `"Can't open file {}"` / `"Error reading {}"` / `"Error writing {}"`. -/
inductive IOErr where
  | cantOpen : ℕ → IOErr
  | readFail : ℕ → IOErr
  | writeFail : ℕ → IOErr
deriving DecidableEq

def IOErr.fn : IOErr → ℕ
  | .cantOpen n => n
  | .readFail n => n
  | .writeFail n => n

/-- `DiagInfo::load(N, P)`: opening the file may fail (`cantOpen`), reading may
fail (`readFail`); on success the map is rebuilt by repeated insertion. -/
def loadDiagInfo (fn : ℕ) (lt : List ℤ → List ℤ → Bool)
    (contents : Option (List Tok)) : Except IOErr (List (List ℤ × EigenS)) :=
  match contents with
  | none => .error (.cantOpen fn)
  | some ts =>
    match decDiagInfo ts with
    | none => .error (.readFail fn)
    | some d => .ok (mapFromEntries lt d.1)

/-- `DiagInfo::save(N, P)`: a failed open or a bad write stream throws with the
file name; otherwise the archive contents are produced. -/
def saveDiagInfo (fn : ℕ) (writeOk : Bool) (entries : List (List ℤ × EigenS)) :
    Except IOErr (List Tok) :=
  if writeOk then .ok (encDiagInfo entries) else .error (.writeFail fn)

/-- `DensMatElements::load(N, P, prefix)`. -/
def loadDensMat (fn : ℕ) (lt : List ℤ → List ℤ → Bool)
    (contents : Option (List Tok)) :
    Except IOErr (List (List ℤ × List (List ℚ))) :=
  match contents with
  | none => .error (.cantOpen fn)
  | some ts =>
    match decDensMat ts with
    | none => .error (.readFail fn)
    | some d => .ok (mapFromEntries lt d.1)

/-! ### FDM weights: `calc_ZnD` (nrg-general.h:1340-1382)

The ≥400-bit GMP accumulators are modelled as exact reals.  A `DimSub` record
keeps `mult(I)`, the kept and total state counts, the `absenergyG` values and
the `is_last` flag; `all()` iterates over `irange(min(), max())` with
`min() = is_last ? 0 : kept`. -/

structure DimSubM where
  mult : ℕ
  kept : ℕ
  total : ℕ
  absEG : ℕ → ℝ
  last : Bool

/-- `DimSub::all() = irange(is_last ? 0 : kept, total)`. -/
def DimSubM.allRange (d : DimSubM) : List ℕ :=
  (List.range d.total).drop (if d.last then 0 else d.kept)

/-- `ZnDG[N] = Σ_{(I,ds)} Σ_{i ∈ ds.all()} mult(I) · exp(-absenergyG[i]/T)`. -/
noncomputable def ZnDG (T : ℝ) (shell : List DimSubM) : ℝ :=
  (shell.map fun d =>
    (d.allRange.map fun i => (d.mult : ℝ) * Real.exp (-d.absEG i / T)).sum).sum

/-- Follows the claim's words: the same quantity summed over all states
`i < total` of every subspace ("all their states"). -/
noncomputable def ZnDG_claim (T : ℝ) (shell : List DimSubM) : ℝ :=
  (shell.map fun d =>
    ((List.range d.total).map fun i =>
      (d.mult : ℝ) * Real.exp (-d.absEG i / T)).sum).sum

/-- The `AllSteps` store: valid index range `[Nbegin, Nend)` and the per-step
subspace records. -/
structure AllStepsM where
  Nbegin : ℕ
  Nend : ℕ
  shells : ℕ → List DimSubM

def AllStepsM.Nall (dm : AllStepsM) : List ℕ :=
  (List.range dm.Nend).drop dm.Nbegin

/-- `ZZG = Σ_N ZnDG[N] · combs^(Nend - N - 1)`. -/
noncomputable def ZZG (T : ℝ) (combs : ℕ) (dm : AllStepsM) : ℝ :=
  (dm.Nall.map fun N =>
    ZnDG T (dm.shells N) * (combs : ℝ) ^ (dm.Nend - N - 1)).sum

/-- `wn[N] = (combs^(Nend-N-1) / ZZG) · ZnDG[N]`. -/
noncomputable def wn (T : ℝ) (combs : ℕ) (dm : AllStepsM) (N : ℕ) : ℝ :=
  (combs : ℝ) ^ (dm.Nend - N - 1) / ZZG T combs dm * ZnDG T (dm.shells N)

/-- `sumwn = Σ_N wn[N]`. -/
noncomputable def sumwn (T : ℝ) (combs : ℕ) (dm : AllStepsM) : ℝ :=
  (dm.Nall.map (wn T combs dm)).sum

/-! ### Partition function and density-matrix trace
(`grand_canonical_Z` nrg-general.h:1250-1258, `init_rho` 1260-1275,
`check_trace_rho` 820-825, `num_equal`/`my_fcmp` numerics.h) -/

/-- One subspace as seen by `grand_canonical_Z`/`init_rho`: multiplicity,
shifted eigenvalues, number of kept states. -/
structure SubR where
  mult : ℕ
  value_zero : List ℝ
  kept : ℕ

/-- `grand_canonical_Z`: `ZN = Σ_I Σ_{i ∈ kept} mult(I) ·
exp(-value_zero(i) · scT · factor)`. -/
noncomputable def grand_canonical_Z (scT factor : ℝ) (diag : List SubR) : ℝ :=
  (diag.map fun s =>
    ((List.range s.kept).map fun i =>
      (s.mult : ℝ) * Real.exp (-s.value_zero.getD i 0 * scT * factor)).sum).sum

/-- The multiplicity-weighted trace of `init_rho`'s result:
`Σ_I mult(I) · tr(diagonal_exp(scT)/Z)`, where `diagonal_exp` ranges over the
stored states and `Z = grand_canonical_Z(step, diag)` (factor 1). -/
noncomputable def rho_trace (scT : ℝ) (diag : List SubR) : ℝ :=
  (diag.map fun s =>
    ((List.range s.value_zero.length).map fun i =>
      (s.mult : ℝ) *
        (Real.exp (-s.value_zero.getD i 0 * scT) /
          grand_canonical_Z scT 1 diag)).sum).sum

/-- `my_fcmp(x, y, eps, eps) == 0` (numerics.h:45-53): evidently equal, both
below the small epsilon, or within the relative tolerance. -/
def fcmpEq (x y eps : ℝ) : Prop :=
  (x = 0 ∧ y = 0) ∨ (|x| < eps ∧ |y| < eps) ∨ |x - y| < eps * (|x| + |y|)

/-- `num_equal(a, b, check_precision = 1e-12)` (numerics.h:55-59). -/
def num_equal (a b : ℝ) (prec : ℝ) : Prop := fcmpEq a b prec

/-- `check_trace_rho` does not throw iff `num_equal(trace, ref)` with the
default precision `1e-12`. -/
def check_trace_rho_passes (t ref : ℝ) : Prop := num_equal t ref (1 / 10 ^ 12)

/-! #### Lemmas about the safeguard loop -/

theorem sgLoopF_exit (es : List ℚ) (sg : ℚ) (sgmax : ℕ) :
    ∀ (fuel k c : ℕ), es.length - k ≤ fuel →
    ¬((sgLoopF es sg sgmax fuel k c).1 < es.length ∧
      es.getD (sgLoopF es sg sgmax fuel k c).1 0 -
        es.getD ((sgLoopF es sg sgmax fuel k c).1 - 1) 0 ≤ sg ∧
      (sgLoopF es sg sgmax fuel k c).2 < sgmax) := by
  intro fuel
  induction fuel with
  | zero =>
    intro k c hf
    simp only [sgLoopF]
    intro h
    omega
  | succ n ih =>
    intro k c hf
    simp only [sgLoopF]
    by_cases h : k < es.length ∧ es.getD k 0 - es.getD (k - 1) 0 ≤ sg ∧ c < sgmax
    · simp only [if_pos h]
      exact ih (k + 1) (c + 1) (by omega)
    · simp only [if_neg h]
      exact h

theorem sgLoopF_basic (es : List ℚ) (sg : ℚ) (sgmax : ℕ) :
    ∀ (fuel k c : ℕ),
    k ≤ (sgLoopF es sg sgmax fuel k c).1 ∧
    (sgLoopF es sg sgmax fuel k c).1 - k = (sgLoopF es sg sgmax fuel k c).2 - c ∧
    c ≤ (sgLoopF es sg sgmax fuel k c).2 ∧
    (sgLoopF es sg sgmax fuel k c).2 ≤ max c sgmax ∧
    (k ≤ es.length → (sgLoopF es sg sgmax fuel k c).1 ≤ es.length) := by
  intro fuel
  induction fuel with
  | zero =>
    intro k c
    simp only [sgLoopF]
    omega
  | succ n ih =>
    intro k c
    simp only [sgLoopF]
    by_cases h : k < es.length ∧ es.getD k 0 - es.getD (k - 1) 0 ≤ sg ∧ c < sgmax
    · simp only [if_pos h]
      have := ih (k + 1) (c + 1)
      omega
    · simp only [if_neg h]
      omega

theorem sgLoop_exit (es : List ℚ) (sg : ℚ) (sgmax k c : ℕ) :
    ¬((sgLoop es sg sgmax k c).1 < es.length ∧
      es.getD (sgLoop es sg sgmax k c).1 0 -
        es.getD ((sgLoop es sg sgmax k c).1 - 1) 0 ≤ sg ∧
      (sgLoop es sg sgmax k c).2 < sgmax) :=
  sgLoopF_exit es sg sgmax (es.length - k) k c (le_refl _)

theorem sgLoop_basic (es : List ℚ) (sg : ℚ) (sgmax k c : ℕ) :
    k ≤ (sgLoop es sg sgmax k c).1 ∧
    (sgLoop es sg sgmax k c).1 - k = (sgLoop es sg sgmax k c).2 - c ∧
    c ≤ (sgLoop es sg sgmax k c).2 ∧
    (sgLoop es sg sgmax k c).2 ≤ max c sgmax ∧
    (k ≤ es.length → (sgLoop es sg sgmax k c).1 ≤ es.length) :=
  sgLoopF_basic es sg sgmax (es.length - k) k c

theorem nrkeepA_pos (P : TruncParams) (unscale : ℚ) (es : List ℚ)
    (h1 : 1 ≤ P.keep) : 1 ≤ nrkeepA P unscale es := by
  unfold nrkeepA clampNat
  split
  · exact h1
  · split
    · omega
    · split
      · exact h1
      · omega

theorem nrkeepA_ge_keepmin (P : TruncParams) (unscale : ℚ) (es : List ℚ)
    (hkm : P.keepmin ≤ P.keep) : P.keepmin ≤ nrkeepA P unscale es := by
  unfold nrkeepA clampNat
  split
  · exact hkm
  · split
    · omega
    · split
      · exact hkm
      · omega

theorem nrkeepA_le_keep_of_nonpos (P : TruncParams) (unscale : ℚ) (es : List ℚ)
    (h : P.keepenergy ≤ 0) : nrkeepA P unscale es = P.keep := by
  unfold nrkeepA
  simp [h]

theorem highest_retained_eq_of_sg (P : TruncParams) (u : ℚ) (es : List ℚ)
    (hsg : 0 < P.safeguard) :
    highest_retained P u es =
      (clampNat (sgLoop es P.safeguard P.safeguardmax (nrkeepA P u es) 0).1 1 es.length,
       (sgLoop es P.safeguard P.safeguardmax (nrkeepA P u es) 0).2,
       es.getD
         (clampNat (sgLoop es P.safeguard P.safeguardmax (nrkeepA P u es) 0).1 1
           es.length - 1) 0) := by
  simp only [highest_retained, if_pos hsg]

/-- Claim C1 (amended): the selection of `nrkeep` (the `keep` count when the
keep-energy parameter is nonpositive, otherwise `1 + #{e ≤ keepenergy·unscale}`
clamped to `[keepmin, keep]`), the safeguard increment count staying within
`safeguardmax`, the gap postcondition `energies[nrkeep] − energies[nrkeep−1] >
safeguard` at return — which requires the safeguard parameter to be positive
(the loop is guarded by `safeguard > 0`) and holds unless the hard cap was
reached or all states were retained — and the returned cutoff being
`energies[nrkeep−1]` after the final clamp of `nrkeep` to `[1, total]`. -/
theorem claim_C1_highest_retained_energy (P : TruncParams) (u : ℚ) (es : List ℚ)
    (hkeep : 1 ≤ P.keep) (hsg : 0 < P.safeguard) :
    (P.keepenergy ≤ 0 → nrkeepA P u es = P.keep) ∧
    (¬P.keepenergy ≤ 0 → nrkeepA P u es =
      clampNat (1 + es.countP (fun e => decide (e ≤ P.keepenergy * u)))
        P.keepmin P.keep) ∧
    (highest_retained P u es).2.1 ≤ P.safeguardmax ∧
    ((highest_retained P u es).2.1 < P.safeguardmax →
      (highest_retained P u es).1 < es.length →
      P.safeguard < es.getD (highest_retained P u es).1 0 -
        es.getD ((highest_retained P u es).1 - 1) 0) ∧
    highest_retained_energy P u es =
      es.getD ((highest_retained P u es).1 - 1) 0 := by
  have hd := highest_retained_eq_of_sg P u es hsg
  have hb := sgLoop_basic es P.safeguard P.safeguardmax (nrkeepA P u es) 0
  have hx := sgLoop_exit es P.safeguard P.safeguardmax (nrkeepA P u es) 0
  have h1 : 1 ≤ nrkeepA P u es := nrkeepA_pos P u es hkeep
  have h21 : (highest_retained P u es).2.1 =
      (sgLoop es P.safeguard P.safeguardmax (nrkeepA P u es) 0).2 := by rw [hd]
  have h11 : (highest_retained P u es).1 =
      clampNat (sgLoop es P.safeguard P.safeguardmax (nrkeepA P u es) 0).1 1
        es.length := by rw [hd]
  have h22 : (highest_retained P u es).2.2 =
      es.getD
        (clampNat (sgLoop es P.safeguard P.safeguardmax (nrkeepA P u es) 0).1 1
          es.length - 1) 0 := by rw [hd]
  refine ⟨fun h => nrkeepA_le_keep_of_nonpos P u es h, fun h => ?_, ?_, ?_, ?_⟩
  · unfold nrkeepA
    simp [h]
  · rw [h21]
    omega
  · rw [h21, h11]
    intro hcnt hlen
    set r := sgLoop es P.safeguard P.safeguardmax (nrkeepA P u es) 0 with hr
    have hcl : clampNat r.1 1 es.length = r.1 := by
      unfold clampNat at hlen ⊢
      split_ifs at hlen ⊢ <;> omega
    rw [hcl] at hlen ⊢
    by_contra hgap
    exact hx ⟨hlen, le_of_not_lt hgap, hcnt⟩
  · rw [highest_retained_energy, h22, h11]

/-- Claim C1 witness: a concrete run of `highest_retained_energy` in which the
safeguard is active and the gap postcondition is verified. -/
theorem claim_C1_witness :
    (1 ≤ (⟨1, 3, 2, 1, 5⟩ : TruncParams).keep) ∧
    (0 < (⟨1, 3, 2, 1, 5⟩ : TruncParams).safeguard) ∧
    ((1:ℚ) < [(0:ℚ), 1, 2, 10].getD
        (highest_retained ⟨1, 3, 2, 1, 5⟩ 1 [0, 1, 2, 10]).1 0 -
      [(0:ℚ), 1, 2, 10].getD
        ((highest_retained ⟨1, 3, 2, 1, 5⟩ 1 [0, 1, 2, 10]).1 - 1) 0) :=
  ⟨by decide, by norm_num,
   (claim_C1_highest_retained_energy ⟨1, 3, 2, 1, 5⟩ 1 [0, 1, 2, 10]
      (by decide) (by norm_num)).2.2.2.1
    (by norm_num [highest_retained, nrkeepA, sgLoop, sgLoopF, clampNat,
      List.countP, List.countP.go])
    (by norm_num [highest_retained, nrkeepA, sgLoop, sgLoopF, clampNat,
      List.countP, List.countP.go])⟩

/-- Claim C1 counterexample: with `safeguard = 0` the safeguard loop is skipped
(`if (P.safeguard > 0.0)`), so for the spectrum `[0, 0]` with `keep = 1` the
function returns with `nrkeep = 1 < total`, the hard cap not reached, and the
gap `energies[1] − energies[0] = 0` NOT exceeding the safeguard. -/
theorem claim_C1_cex :
    (highest_retained ⟨0, 1, 1, 0, 100⟩ 1 [0, 0]).2.1 < 100 ∧
    (highest_retained ⟨0, 1, 1, 0, 100⟩ 1 [0, 0]).1 < [(0:ℚ), 0].length ∧
    ¬((0:ℚ) < [(0:ℚ), 0].getD (highest_retained ⟨0, 1, 1, 0, 100⟩ 1 [0, 0]).1 0 -
        [(0:ℚ), 0].getD ((highest_retained ⟨0, 1, 1, 0, 100⟩ 1 [0, 0]).1 - 1) 0) := by
  norm_num [highest_retained, nrkeepA, sgLoop, sgLoopF, clampNat]

/-! #### Lemmas about sorted spectra and state counting -/

theorem sorted_energies_sorted (diag : List EigenM) :
    List.Sorted (· ≤ ·) (sorted_energies diag) := by
  have h := @List.sorted_mergeSort ℚ (fun a b : ℚ => decide (a ≤ b))
    (fun a b c hab hbc => by
      simp only [decide_eq_true_eq] at *
      exact le_trans hab hbc)
    (fun a b => by
      simp only [Bool.or_eq_true, decide_eq_true_eq]
      exact le_total a b)
    (diag.flatMap EigenM.value_zero)
  exact h.imp (by simp)

theorem sorted_getD_mono {es : List ℚ} (hs : List.Sorted (· ≤ ·) es) {i j : ℕ}
    (hij : i ≤ j) (hj : j < es.length) : es.getD i 0 ≤ es.getD j 0 := by
  have hi : i < es.length := lt_of_le_of_lt hij hj
  rw [List.getD_eq_getElem es 0 hi, List.getD_eq_getElem es 0 hj]
  rcases eq_or_lt_of_le hij with h | h
  · subst h
    exact le_refl _
  · have := @List.Sorted.rel_get_of_lt ℚ (· ≤ ·) es hs ⟨i, hi⟩ ⟨j, hj⟩ h
    simpa using this

theorem countP_flatMap (p : ℚ → Bool) :
    ∀ (l : List EigenM), (l.flatMap EigenM.value_zero).countP p =
      (l.map (fun e => e.value_zero.countP p)).sum
  | [] => rfl
  | e :: t => by
    simp only [List.flatMap_cons, List.countP_append, List.map_cons, List.sum_cons,
      countP_flatMap p t]

theorem countP_ge_firstn (x : ℚ) :
    ∀ (es : List ℚ) (n : ℕ), n ≤ es.length →
      (∀ i, i < n → es.getD i 0 ≤ x) →
      n ≤ es.countP (fun e => decide (e ≤ x))
  | _, 0, _, _ => Nat.zero_le _
  | [], n + 1, h, _ => by simp at h
  | a :: t, n + 1, h, hle => by
    have ha : a ≤ x := by
      have := hle 0 (Nat.succ_pos n)
      simpa using this
    rw [List.countP_cons_of_pos _ _ (by simpa using ha)]
    have ht := countP_ge_firstn x t n (by simpa using h) (fun i hi => by
      have := hle (i + 1) (by omega)
      simpa using this)
    omega

theorem countP_le_tail (x : ℚ) :
    ∀ (es : List ℚ) (n : ℕ),
      (∀ i, n ≤ i → i < es.length → x < es.getD i 0) →
      es.countP (fun e => decide (e ≤ x)) ≤ n
  | [], _, _ => by simp
  | a :: t, 0, h => by
    have ha : x < a := by
      have := h 0 (le_refl 0) (by simp)
      simpa using this
    rw [List.countP_cons_of_neg _ _ (by simpa using not_le.mpr ha)]
    exact countP_le_tail x t 0 (fun i _ hi => by
      have := h (i + 1) (by omega) (by simpa using hi)
      simpa using this)
  | a :: t, n + 1, h => by
    have hb : List.countP (fun e => decide (e ≤ x)) (a :: t) ≤
        List.countP (fun e => decide (e ≤ x)) t + 1 := by
      rw [List.countP_cons]
      split <;> omega
    have ht := countP_le_tail x t n (fun i hi hlen => by
      have := h (i + 1) (by omega) (by simpa using hlen)
      simpa using this)
    omega

theorem sorted_energies_countP (diag : List EigenM) (p : ℚ → Bool) :
    (sorted_energies diag).countP p =
      (diag.map (fun e => e.value_zero.countP p)).sum := by
  rw [sorted_energies, List.Perm.countP_eq p (List.mergeSort_perm _ _), countP_flatMap]

theorem nrkept_truncate_prepare (lastKeepAll : Bool) (P : TruncParams) (u : ℚ)
    (diag : List EigenM) :
    nrkept (truncate_prepare lastKeepAll P u diag) =
      (diag.map (fun e =>
        if lastKeepAll then e.getnrcomputed
        else e.value_zero.countP (fun x =>
          decide (x ≤ highest_retained_energy P u (sorted_energies diag))))).sum := by
  unfold nrkept truncate_prepare
  rw [List.map_map]
  rfl

theorem highest_retained_facts (P : TruncParams) (u : ℚ) (es : List ℚ)
    (hkeep : 1 ≤ P.keep) (hkm : P.keepmin ≤ P.keep) :
    (highest_retained P u es).1 ≤ es.length ∧
    min P.keepmin es.length ≤ (highest_retained P u es).1 ∧
    ((highest_retained P u es).2.1 = 0 → P.keepenergy ≤ 0 →
      (highest_retained P u es).1 ≤ P.keep) ∧
    highest_retained_energy P u es =
      es.getD ((highest_retained P u es).1 - 1) 0 := by
  have key : ∃ v cnt, highest_retained P u es =
      (clampNat v 1 es.length, cnt, es.getD (clampNat v 1 es.length - 1) 0) ∧
      1 ≤ v ∧ P.keepmin ≤ v ∧ (cnt = 0 → nrkeepA P u es = v) := by
    by_cases hsg : 0 < P.safeguard
    · refine ⟨(sgLoop es P.safeguard P.safeguardmax (nrkeepA P u es) 0).1,
        (sgLoop es P.safeguard P.safeguardmax (nrkeepA P u es) 0).2,
        by simp only [highest_retained, if_pos hsg], ?_, ?_, ?_⟩
      · have hb := sgLoop_basic es P.safeguard P.safeguardmax (nrkeepA P u es) 0
        have := nrkeepA_pos P u es hkeep
        omega
      · have hb := sgLoop_basic es P.safeguard P.safeguardmax (nrkeepA P u es) 0
        have := nrkeepA_ge_keepmin P u es hkm
        omega
      · intro hc
        have hb := sgLoop_basic es P.safeguard P.safeguardmax (nrkeepA P u es) 0
        omega
    · exact ⟨nrkeepA P u es, 0, by simp only [highest_retained, if_neg hsg],
        nrkeepA_pos P u es hkeep, nrkeepA_ge_keepmin P u es hkm, fun _ => rfl⟩
  obtain ⟨v, cnt, hd, hv1, hvkm, hveq⟩ := key
  have h1v : (highest_retained P u es).1 = clampNat v 1 es.length := by rw [hd]
  have hcv : (highest_retained P u es).2.1 = cnt := by rw [hd]
  have hEv : highest_retained_energy P u es =
      es.getD (clampNat v 1 es.length - 1) 0 := by rw [highest_retained_energy, hd]
  refine ⟨?_, ?_, ?_, ?_⟩
  · rw [h1v]
    unfold clampNat
    split_ifs <;> omega
  · rw [h1v]
    unfold clampNat
    split_ifs <;> omega
  · intro hc hke
    have hv := hveq (by omega)
    have hk := nrkeepA_le_keep_of_nonpos P u es hke
    rw [h1v]
    unfold clampNat
    split_ifs <;> omega
  · rw [hEv, h1v]

/-- Claim C5 (amended): after `truncate_prepare`, every subspace satisfies
`kept ≤ stored ≤ computed ≤ dim` and the stored eigenvalue vectors are
untouched (hence remain weakly increasing); the total number of kept states is
at least `min(keepmin, totalnumber)`; and when the keep-energy parameter is
nonpositive the total kept count stays within `keep` PROVIDED the safeguard
loop added no states and no state beyond the cutoff index is degenerate with
`Emax` (without these provisos the count can exceed `keep`). -/
theorem claim_C5_truncate_prepare (P : TruncParams) (u : ℚ) (diag : List EigenM)
    (lastKeepAll : Bool)
    (hsc : ∀ e ∈ diag, e.getnrstored ≤ e.getnrcomputed)
    (hcd : ∀ e ∈ diag, e.getnrcomputed ≤ e.getdim)
    (hka : lastKeepAll = true → ∀ e ∈ diag, e.getnrstored = e.getnrcomputed)
    (hkm : P.keepmin ≤ P.keep) (hkeep : 1 ≤ P.keep) :
    (∀ e ∈ truncate_prepare lastKeepAll P u diag,
      e.getnrkept ≤ e.getnrstored ∧ e.getnrstored ≤ e.getnrcomputed ∧
        e.getnrcomputed ≤ e.getdim) ∧
    (truncate_prepare lastKeepAll P u diag).map EigenM.value_zero =
      diag.map EigenM.value_zero ∧
    (lastKeepAll = false → P.keepenergy ≤ 0 →
      (highest_retained P u (sorted_energies diag)).2.1 = 0 →
      ((highest_retained P u (sorted_energies diag)).1 =
          (sorted_energies diag).length ∨
        highest_retained_energy P u (sorted_energies diag) <
          (sorted_energies diag).getD
            (highest_retained P u (sorted_energies diag)).1 0) →
      nrkept (truncate_prepare lastKeepAll P u diag) ≤ P.keep) ∧
    min P.keepmin (sorted_energies diag).length ≤
      nrkept (truncate_prepare lastKeepAll P u diag) := by
  have hes : List.Sorted (· ≤ ·) (sorted_energies diag) := sorted_energies_sorted diag
  obtain ⟨hlen, hminf, hkeepf, hEf⟩ :=
    highest_retained_facts P u (sorted_energies diag) hkeep hkm
  refine ⟨?_, ?_, ?_, ?_⟩
  · intro e' he'
    rw [truncate_prepare] at he'
    obtain ⟨e, he, rfl⟩ := List.mem_map.mp he'
    have h1 : (e.truncate_prepare_subspace
        (if lastKeepAll then e.getnrcomputed
         else e.value_zero.countP (fun x =>
           decide (x ≤ highest_retained_energy P u (sorted_energies diag))))).getnrkept =
        (if lastKeepAll then e.getnrcomputed
         else e.value_zero.countP (fun x =>
           decide (x ≤ highest_retained_energy P u (sorted_energies diag)))) := rfl
    refine ⟨?_, hsc e he, hcd e he⟩
    rw [h1]
    by_cases hl : lastKeepAll = true
    · rw [if_pos hl]
      exact le_of_eq (hka hl e he).symm
    · rw [if_neg hl]
      exact List.countP_le_length _
  · rw [truncate_prepare, List.map_map]
    rfl
  · intro hlk hke hcnt hcut
    rw [nrkept_truncate_prepare, hlk]
    simp only [Bool.false_eq_true, if_false]
    rw [← sorted_energies_countP]
    have hnf := hkeepf hcnt hke
    rcases hcut with hcut | hcut
    · have := @List.countP_le_length ℚ
        (fun x => decide (x ≤ highest_retained_energy P u (sorted_energies diag)))
        (sorted_energies diag)
      omega
    · have hc := countP_le_tail (highest_retained_energy P u (sorted_energies diag))
        (sorted_energies diag) (highest_retained P u (sorted_energies diag)).1
        (fun i hi hil => lt_of_lt_of_le hcut (sorted_getD_mono hes hi hil))
      omega
  · rw [nrkept_truncate_prepare]
    have hsum : (diag.map (fun e => e.value_zero.countP (fun x =>
        decide (x ≤ highest_retained_energy P u (sorted_energies diag))))).sum ≤
        (diag.map (fun e =>
          if lastKeepAll then e.getnrcomputed
          else e.value_zero.countP (fun x =>
            decide (x ≤ highest_retained_energy P u (sorted_energies diag))))).sum := by
      apply List.sum_le_sum
      intro e he
      by_cases hl : lastKeepAll = true
      · rw [if_pos hl]
        calc e.value_zero.countP _ ≤ e.value_zero.length := List.countP_le_length _
          _ = e.getnrstored := rfl
          _ ≤ e.getnrcomputed := hsc e he
      · rw [if_neg hl]
    have hcount : (highest_retained P u (sorted_energies diag)).1 ≤
        (sorted_energies diag).countP (fun x =>
          decide (x ≤ highest_retained_energy P u (sorted_energies diag))) := by
      apply countP_ge_firstn _ _ _ hlen
      intro i hi
      rw [hEf]
      exact sorted_getD_mono hes (by omega) (by omega)
    rw [← sorted_energies_countP] at hsum
    omega

/-- Claim C5 witness: a spectrum with two subspaces where the invariants and
both global bounds are verified on a concrete truncation. -/
theorem claim_C5_witness :
    (∀ e ∈ truncate_prepare false ⟨0, 2, 1, 0, 10⟩ 1
        [⟨[0, 1], 3, [0, 1], none⟩, ⟨[2], 2, [2], none⟩],
      e.getnrkept ≤ e.getnrstored ∧ e.getnrstored ≤ e.getnrcomputed ∧
        e.getnrcomputed ≤ e.getdim) ∧
    min 1 (sorted_energies
        [⟨[0, 1], 3, [0, 1], none⟩, ⟨[2], 2, [2], none⟩]).length ≤
      nrkept (truncate_prepare false ⟨0, 2, 1, 0, 10⟩ 1
        [⟨[0, 1], 3, [0, 1], none⟩, ⟨[2], 2, [2], none⟩]) :=
  ⟨(claim_C5_truncate_prepare ⟨0, 2, 1, 0, 10⟩ 1
      [⟨[0, 1], 3, [0, 1], none⟩, ⟨[2], 2, [2], none⟩] false
      (by decide) (by decide) (by intro h; cases h) (by decide) (by decide)).1,
   (claim_C5_truncate_prepare ⟨0, 2, 1, 0, 10⟩ 1
      [⟨[0, 1], 3, [0, 1], none⟩, ⟨[2], 2, [2], none⟩] false
      (by decide) (by decide) (by intro h; cases h) (by decide) (by decide)).2.2.2⟩

/-- Claim C5 counterexample: with `keepenergy ≤ 0`, `keep = 1` and the
degenerate spectrum `[0, 0]` in one subspace, `Emax = 0` and both degenerate
states are marked kept, so the total kept count is 2 > keep = 1. -/
theorem claim_C5_cex :
    (⟨0, 1, 1, 0, 100⟩ : TruncParams).keepenergy ≤ 0 ∧
    nrkept (truncate_prepare false ⟨0, 1, 1, 0, 100⟩ 1 [⟨[0, 0], 2, [0, 0], none⟩]) = 2 ∧
    ¬(nrkept (truncate_prepare false ⟨0, 1, 1, 0, 100⟩ 1
        [⟨[0, 0], 2, [0, 0], none⟩]) ≤ (⟨0, 1, 1, 0, 100⟩ : TruncParams).keep) := by
  have hse : sorted_energies [⟨[0, 0], 2, [0, 0], none⟩] = [0, 0] := by
    apply List.eq_of_perm_of_sorted
      (show (sorted_energies [⟨[0, 0], 2, [0, 0], none⟩]).Perm [(0:ℚ), 0] from
        by simpa [sorted_energies, List.flatMap] using
          List.mergeSort_perm ([(0:ℚ), 0]) (fun a b => decide (a ≤ b)))
      (sorted_energies_sorted _)
    simp [List.sorted_cons]
  refine ⟨by norm_num, ?_, ?_⟩ <;>
    · rw [nrkept_truncate_prepare]
      simp only [highest_retained_energy, hse]
      norm_num [highest_retained, nrkeepA, clampNat, List.countP, List.countP.go,
        EigenM.getnrkept]

/-- Claim C2 (amended): the insufficient-states condition is detected exactly
when some subspace has `kept = computed`, its last computed shifted eigenvalue
differs from `Emax`, and `computed < dim`; on detection, `do_diag` retries with
`diagratio := min(diagratio · restartfactor, 1)` — but only when the run is an
NRG run with `P.restart` set; otherwise (any step, final or not, and any DMNRG
run) the loop exits at once keeping the available states; there is no abort
path, and the exit decision does not consult `step.last()`. -/
theorem claim_C2_do_diag {α : Type} (diag : List EigenM) (Emax : ℚ)
    (last nrgRun restart : Bool) (factor : ℚ) (diagf : ℚ → α) (ne : α → Bool)
    (fuel : ℕ) (r : ℚ) :
    (notEnoughB diag Emax = true ↔ ∃ e ∈ diag, e.getnrkept = e.getnrcomputed ∧
      e.value_zero.getD (e.getnrcomputed - 1) 0 ≠ Emax ∧
      e.getnrcomputed < e.getdim) ∧
    (ne (diagf r) = false →
      do_diag last nrgRun restart factor diagf ne (fuel + 1) r = diagf r) ∧
    (ne (diagf r) = true → (nrgRun && restart) = false →
      do_diag last nrgRun restart factor diagf ne (fuel + 1) r = diagf r) ∧
    (ne (diagf r) = true → (nrgRun && restart) = true →
      do_diag last nrgRun restart factor diagf ne (fuel + 1) r =
        do_diag last nrgRun restart factor diagf ne fuel (min (r * factor) 1)) := by
  refine ⟨?_, ?_, ?_, ?_⟩
  · simp [notEnoughB, List.any_eq_true, Bool.and_eq_true, decide_eq_true_eq,
      Bool.not_eq_true', decide_eq_false_iff_not, and_assoc]
  · intro h
    simp [do_diag, h]
  · intro h hnr
    simp [do_diag, h, hnr]
  · intro h hnr
    simp [do_diag, h, hnr]

/-- Claim C2 witness: a run whose first attempt succeeds returns that result
unchanged. -/
theorem claim_C2_witness :
    do_diag false true true 2 (id : ℚ → ℚ) (fun _ => false) 5 (1/10) = (1/10 : ℚ) :=
  (claim_C2_do_diag ([] : List EigenM) 0 false true true 2 id (fun _ => false)
    4 (1/10)).2.1 rfl

/-- Claim C2 counterexample: on a NON-final step (`last = false`) of an NRG run
with restart disabled, and with the insufficient-states condition holding for
every diagratio, `do_diag` returns normally after the first attempt, keeping
the available (still insufficient) states — the claim instead says this
degradation happens on the final step only and that the run otherwise aborts;
the exit decision `!(step.nrg() && P.restart)` never consults `step.last()`. -/
theorem claim_C2_cex :
    do_diag false true false 2 (id : ℚ → ℚ) (fun _ => true) 5 (1/10) = (1/10 : ℚ) ∧
    (fun _ : ℚ => true) ((1:ℚ)/10) = true := by
  exact ⟨by simp [do_diag], rfl⟩

/-- Claim C6 (amended): the truncation is only prepared (counts recorded)
during the diagonalization phase (`do_diag`), and the physical truncation
happens inside `after_diag` after the basic measurements and the
all-strategy operator recalculation — but BEFORE the `AllSteps` density-matrix
store, not after it. -/
theorem claim_C6_after_diag_order
    (nrgRun dmFlag doAll doKept doNone last sumRules : Bool) :
    PhaseT.truncatePrepare ∈ do_diag_phases ∧
    PhaseT.truncatePrepare ∉
      after_diag_phases nrgRun dmFlag false doAll doKept doNone last sumRules ∧
    PhaseT.truncatePerform ∉ do_diag_phases ∧
    List.indexOf PhaseT.truncatePerform
        (after_diag_phases nrgRun dmFlag false doAll doKept doNone last sumRules) <
      List.indexOf PhaseT.dmStore
        (after_diag_phases nrgRun dmFlag false doAll doKept doNone last sumRules) ∧
    (nrgRun = true →
      List.indexOf PhaseT.basicMeasurements
          (after_diag_phases nrgRun dmFlag false doAll doKept doNone last sumRules) <
        List.indexOf PhaseT.truncatePerform
          (after_diag_phases nrgRun dmFlag false doAll doKept doNone last sumRules)) ∧
    (doAll = true →
      List.indexOf PhaseT.recalcOpsAll
          (after_diag_phases nrgRun dmFlag false doAll doKept doNone last sumRules) <
        List.indexOf PhaseT.truncatePerform
          (after_diag_phases nrgRun dmFlag false doAll doKept doNone last sumRules)) := by
  revert nrgRun dmFlag doAll doKept doNone last sumRules
  decide

/-- Claim C6 witness: the phase order verified for a first-pass step with the
density-matrix store and all-strategy recalculation enabled. -/
theorem claim_C6_witness :
    List.indexOf PhaseT.basicMeasurements
        (after_diag_phases true true false true false false false false) <
      List.indexOf PhaseT.truncatePerform
        (after_diag_phases true true false true false false false false) :=
  (claim_C6_after_diag_order true true true false false false false).2.2.2.2.1 rfl

/-- Claim C6 counterexample: in `after_diag` the physical truncation
(`diag.truncate_perform()`) is executed BEFORE `dm.store(...)`, contradicting
the claim that it is not performed until after the `AllSteps`/`SubspaceDims`
store has been recorded. -/
theorem claim_C6_cex :
    PhaseT.truncatePerform ∈
      after_diag_phases true true false true false false false false ∧
    PhaseT.dmStore ∈ after_diag_phases true true false true false false false false ∧
    ¬(List.indexOf PhaseT.dmStore
        (after_diag_phases true true false true false false false false) <
      List.indexOf PhaseT.truncatePerform
        (after_diag_phases true true false true false false false false)) := by
  decide

/-! #### CFS kernels: membership and equivalence -/

theorem mem_range_drop {n d a : ℕ} (h : a ∈ (List.range n).drop d) :
    d ≤ a ∧ a < n := by
  rw [List.mem_drop_iff_getElem] at h
  obtain ⟨i, hm, he⟩ := h
  have hlen : (List.range n).length = n := List.length_range n
  rw [List.getElem_range] at he
  omega

/-- Claim C7 (amended): on a non-final step, with the kept/discarded split of
BOTH subspaces induced by a common truncation cutoff `Emax` (kept states lie
at or below `Emax`, discarded states strictly above it) and a nonnegative
scale, every contribution of the CFS "less than" branch has energy
`scale·(El − Ek) ≥ 0` and every contribution of the "greater than" branch has
energy `≤ 0`, so the sign assertions never fail. -/
theorem claim_C7_cfs_energy_signs (scale scT Zft sign spinfactor Emax : ℚ)
    (cexp : ℚ → ℚ) (vz1 vzp : List ℚ) (stored1 storedp dim1 dimp : ℕ)
    (op1 op2 rhoP rho1 : ℕ → ℕ → ℚ)
    (hscale : 0 ≤ scale)
    (hkeptp : ∀ i, i < dimp → vzp.getD i 0 ≤ Emax)
    (hdisc1 : ∀ l, dim1 ≤ l → l < stored1 → Emax < vz1.getD l 0)
    (hkept1 : ∀ i, i < dim1 → vz1.getD i 0 ≤ Emax)
    (hdiscp : ∀ l, dimp ≤ l → l < storedp → Emax < vzp.getD l 0) :
    (∀ c ∈ Algo_CFSls_OLD false scale scT Zft sign spinfactor cexp vz1 vzp
        stored1 storedp dim1 dimp op1 op2 rhoP, 0 ≤ c.1) ∧
    (∀ c ∈ Algo_CFSgt_OLD false scale scT Zft spinfactor cexp vz1 vzp
        stored1 storedp dim1 dimp op1 op2 rho1, c.1 ≤ 0) := by
  constructor
  · intro c hc
    rw [Algo_CFSls_OLD, if_neg (by simp)] at hc
    obtain ⟨rl, hrl, hc2⟩ := List.mem_flatMap.mp hc
    obtain ⟨rk, hrk, rfl⟩ := List.mem_map.mp hc2
    obtain ⟨hrl1, hrl2⟩ := mem_range_drop hrl
    have hkk := hkeptp rk (List.mem_range.mp hrk)
    have hdd := hdisc1 rl hrl1 hrl2
    exact mul_nonneg hscale (by linarith)
  · intro c hc
    rw [Algo_CFSgt_OLD, if_neg (by simp)] at hc
    obtain ⟨rk, hrk, hc2⟩ := List.mem_flatMap.mp hc
    obtain ⟨rl, hrl, rfl⟩ := List.mem_map.mp hc2
    obtain ⟨hrl1, hrl2⟩ := mem_range_drop hrl
    have hkk := hkept1 rk (List.mem_range.mp hrk)
    have hdd := hdiscp rl hrl1 hrl2
    exact mul_nonpos_of_nonneg_of_nonpos hscale (by linarith)

/-- Claim C7 witness: a concrete non-final step with one discarded state above
the cutoff in `I1` and one kept state in `Ip`; the verified sign conditions. -/
theorem claim_C7_witness :
    (0:ℚ) ≤ 1 ∧
    (∀ c ∈ Algo_CFSls_OLD false 1 1 1 1 1 id [0, 2] [0] 2 1 1 1
        (fun _ _ => 1) (fun _ _ => 1) (fun _ _ => 1), 0 ≤ c.1) ∧
    (∀ c ∈ Algo_CFSgt_OLD false 1 1 1 1 id [0, 2] [0] 2 1 1 1
        (fun _ _ => 1) (fun _ _ => 1) (fun _ _ => 1), c.1 ≤ 0) :=
  ⟨by norm_num,
   (claim_C7_cfs_energy_signs 1 1 1 1 1 1 id [0, 2] [0] 2 1 1 1
      (fun _ _ => 1) (fun _ _ => 1) (fun _ _ => 1) (fun _ _ => 1)
      (by norm_num)
      (fun i hi => by
        have : i = 0 := by omega
        subst this
        norm_num)
      (fun l hl1 hl2 => by
        have : l = 1 := by omega
        subst this
        norm_num)
      (fun i hi => by
        have : i = 0 := by omega
        subst this
        norm_num)
      (fun l hl1 hl2 => by omega)).1,
   (claim_C7_cfs_energy_signs 1 1 1 1 1 1 id [0, 2] [0] 2 1 1 1
      (fun _ _ => 1) (fun _ _ => 1) (fun _ _ => 1) (fun _ _ => 1)
      (by norm_num)
      (fun i hi => by
        have : i = 0 := by omega
        subst this
        norm_num)
      (fun l hl1 hl2 => by
        have : l = 1 := by omega
        subst this
        norm_num)
      (fun i hi => by
        have : i = 0 := by omega
        subst this
        norm_num)
      (fun l hl1 hl2 => by omega)).2⟩

/-- Claim C7 counterexample: sorted-ascending spectra whose kept states form
index-order initial runs but with NO common cutoff (`I1` discards the state at
energy 1 while `Ip` keeps a state at energy 5): the "less than" branch emits
energy `1·(1 − 5) = −4 < 0`, so the assertion `d.energy >= 0.0` would fail —
sortedness plus a kept initial run alone do not imply the sign property. -/
theorem claim_C7_cex :
    List.Sorted (· ≤ ·) [(0:ℚ), 1] ∧ List.Sorted (· ≤ ·) [(0:ℚ), 5] ∧
    ∃ c ∈ Algo_CFSls_OLD false 1 1 1 1 1 id [0, 1] [0, 5] 2 2 1 2
      (fun _ _ => 1) (fun _ _ => 1) (fun _ _ => 1), c.1 < 0 := by
  refine ⟨by simp [List.sorted_cons], by simp [List.sorted_cons], ?_⟩
  rw [Algo_CFSls_OLD, if_neg (by simp)]
  refine ⟨(1 * ([(0:ℚ), 1].getD 1 0 - [(0:ℚ), 5].getD 1 0),
    1 * 1 * sumRange 2 (fun rkp => 1 * 1) * (-1)), ?_, by norm_num⟩
  rw [List.mem_flatMap]
  refine ⟨1, by decide, ?_⟩
  rw [List.mem_map]
  exact ⟨1, by decide, rfl⟩

/-- Claim C8: for real scalars the OPTIMIZED implementations of
`Algo_CFSls::calc` and `Algo_CFSgt::calc` emit exactly the same list of
`(energy, weight)` contributions as the OLD reference implementations, for
every step kind, eigenspectra, operator matrices, spin factor, sign, partition
function and density matrix. -/
theorem claim_C8_cfs_old_optimized_equal (last : Bool)
    (scale scT Zft sign spinfactor : ℚ) (cexp : ℚ → ℚ) (vz1 vzp : List ℚ)
    (stored1 storedp dim1 dimp : ℕ) (op1 op2 rhoP rho1 : ℕ → ℕ → ℚ) :
    Algo_CFSls_OLD last scale scT Zft sign spinfactor cexp vz1 vzp stored1
        storedp dim1 dimp op1 op2 rhoP =
      Algo_CFSls_OPT last scale scT Zft sign spinfactor cexp vz1 vzp stored1
        storedp dim1 dimp op1 op2 rhoP ∧
    Algo_CFSgt_OLD last scale scT Zft spinfactor cexp vz1 vzp stored1 storedp
        dim1 dimp op1 op2 rho1 =
      Algo_CFSgt_OPT last scale scT Zft spinfactor cexp vz1 vzp stored1 storedp
        dim1 dimp op1 op2 rho1 := by
  constructor
  · by_cases hl : last = true
    · rw [Algo_CFSls_OLD, Algo_CFSls_OPT, if_pos hl, if_pos hl]
    · rw [Algo_CFSls_OLD, Algo_CFSls_OPT, if_neg hl, if_neg hl]
      by_cases hg : stored1 ≠ 0 ∧ dimp ≠ 0
      · rw [if_pos hg]
        rfl
      · rw [if_neg hg]
        rcases Decidable.not_and_iff_or_not.mp hg with h | h
        · have h0 : stored1 = 0 := by omega
          simp [h0]
        · have h0 : dimp = 0 := by omega
          simp [h0]
  · by_cases hl : last = true
    · rw [Algo_CFSgt_OLD, Algo_CFSgt_OPT, if_pos hl, if_pos hl]
    · rw [Algo_CFSgt_OLD, Algo_CFSgt_OPT, if_neg hl, if_neg hl]
      have hfun : ∀ rk : ℕ,
          ((List.range storedp).drop dimp).map (fun rl =>
            (scale * (vz1.getD rk 0 - vzp.getD rl 0),
             spinfactor * sumRange dim1 (fun rkp => op1 rkp rl * rho1 rkp rk) *
               op2 rk rl)) =
          ((List.range storedp).drop dimp).map (fun rl =>
            (scale * (vz1.getD rk 0 - vzp.getD rl 0),
             spinfactor * gemmTN rho1 op1 dim1 rk rl * op2 rk rl)) := by
        intro rk
        apply List.map_congr_left
        intro rl _
        have hsum : sumRange dim1 (fun rkp => op1 rkp rl * rho1 rkp rk) =
            gemmTN rho1 op1 dim1 rk rl := by
          unfold gemmTN sumRange
          congr 1
          apply List.map_congr_left
          intro c _
          ring
        rw [hsum]
      by_cases hg : dim1 ≠ 0 ∧ storedp ≠ 0
      · rw [if_pos hg]
        exact congrArg (List.range dim1).flatMap (funext hfun)
      · rw [if_neg hg]
        rcases Decidable.not_and_iff_or_not.mp hg with h | h
        · have h0 : dim1 = 0 := by omega
          simp [h0]
        · have h0 : storedp = 0 := by omega
          simp [h0]

/-! #### Serialization round-trip lemmas -/

theorem decVecAux_enc (v : List ℚ) :
    ∀ ts, decVecAux v.length (v.map Tok.q ++ ts) = some (v, ts) := by
  induction v with
  | nil => intro ts; rfl
  | cons x t ih =>
    intro ts
    simp [decVecAux, ih]

theorem decVec_enc (v : List ℚ) (ts : List Tok) :
    decVec (encVec v ++ ts) = some (v, ts) := by
  simp only [encVec, List.cons_append, decVec, decVecAux_enc]

theorem decRows_enc (k : ℕ) :
    ∀ (m : List (List ℚ)), (∀ r ∈ m, r.length = k) →
      ∀ ts, decRows m.length k ((m.flatMap id).map Tok.q ++ ts) = some (m, ts) := by
  intro m
  induction m with
  | nil => intro _ ts; rfl
  | cons r t ih =>
    intro h ts
    have hr : r.length = k := h r (by simp)
    have h1 : decVecAux k
        (List.map Tok.q r ++ (List.map Tok.q (t.flatMap id) ++ ts)) =
        some (r, List.map Tok.q (t.flatMap id) ++ ts) := by
      rw [← hr]
      exact decVecAux_enc r _
    have h2 := ih (fun r' hr' => h r' (by simp [hr'])) ts
    have hm : (((r :: t).flatMap id).map Tok.q ++ ts) =
        List.map Tok.q r ++ (List.map Tok.q (t.flatMap id) ++ ts) := by
      rw [List.flatMap_cons, List.map_append, List.append_assoc]
      rfl
    rw [hm]
    show (decVecAux k (List.map Tok.q r ++ (List.map Tok.q (t.flatMap id) ++ ts))).bind
        (fun p => (decRows t.length k p.2).bind fun q => some (p.1 :: q.1, q.2)) =
      some (r :: t, ts)
    rw [h1]
    show (decRows t.length k (List.map Tok.q (t.flatMap id) ++ ts)).bind
        (fun q => some (r :: q.1, q.2)) = some (r :: t, ts)
    rw [h2]
    rfl

theorem decMat_enc (m : List (List ℚ))
    (hwf : ∀ r ∈ m, r.length = (m.headD []).length) (ts : List Tok) :
    decMat (encMat m ++ ts) = some (m, ts) := by
  simp only [encMat, List.cons_append, decMat]
  exact decRows_enc _ m hwf ts

theorem decEigen_enc (e : EigenS)
    (hwf : ∀ r ∈ e.matrix, r.length = (e.matrix.headD []).length) (ts : List Tok) :
    decEigen (encEigen e ++ ts) = some (e, ts) := by
  unfold encEigen decEigen
  simp only [List.append_assoc, List.cons_append, List.nil_append]
  rw [decVec_enc, Option.some_bind, decMat_enc e.matrix hwf, Option.some_bind,
    decVec_enc, Option.some_bind]
  simp only [decVec_enc, Option.some_bind]

theorem decDiagEntries_enc :
    ∀ (l : List (List ℤ × EigenS)),
      (∀ p ∈ l, ∀ r ∈ p.2.matrix, r.length = (p.2.matrix.headD []).length) →
      ∀ ts, decDiagEntries l.length
          (l.flatMap (fun p => Tok.invar p.1 :: encEigen p.2) ++ ts) =
        some (l, ts) := by
  intro l
  induction l with
  | nil => intro _ ts; rfl
  | cons p t ih =>
    intro h ts
    have h1 := decEigen_enc p.2 (h p (by simp))
      ((t.flatMap fun p => Tok.invar p.1 :: encEigen p.2) ++ ts)
    have h2 := ih (fun p' hp' => h p' (by simp [hp'])) ts
    have hm : ((p :: t).flatMap (fun p => Tok.invar p.1 :: encEigen p.2) ++ ts) =
        Tok.invar p.1 :: (encEigen p.2 ++
          ((t.flatMap fun p => Tok.invar p.1 :: encEigen p.2) ++ ts)) := by
      simp [List.flatMap_cons, List.append_assoc]
    rw [hm]
    show (decEigen (encEigen p.2 ++
        ((t.flatMap fun p => Tok.invar p.1 :: encEigen p.2) ++ ts))).bind
        (fun e => (decDiagEntries t.length e.2).bind fun r =>
          some ((p.1, e.1) :: r.1, r.2)) = some (p :: t, ts)
    rw [h1]
    show (decDiagEntries t.length
        ((t.flatMap fun p => Tok.invar p.1 :: encEigen p.2) ++ ts)).bind
        (fun r => some ((p.1, p.2) :: r.1, r.2)) = some (p :: t, ts)
    rw [h2]
    rfl

theorem decDiagInfo_enc (l : List (List ℤ × EigenS))
    (hwf : ∀ p ∈ l, ∀ r ∈ p.2.matrix, r.length = (p.2.matrix.headD []).length) :
    decDiagInfo (encDiagInfo l) = some (l, []) := by
  have := decDiagEntries_enc l hwf []
  rw [List.append_nil] at this
  simpa [encDiagInfo, decDiagInfo] using this

theorem decDensEntries_enc :
    ∀ (l : List (List ℤ × List (List ℚ))),
      (∀ p ∈ l, ∀ r ∈ p.2, r.length = (p.2.headD []).length) →
      ∀ ts, decDensEntries l.length
          (l.flatMap (fun p => Tok.invar p.1 :: encMat p.2) ++ ts) =
        some (l, ts) := by
  intro l
  induction l with
  | nil => intro _ ts; rfl
  | cons p t ih =>
    intro h ts
    have h1 := decMat_enc p.2 (h p (by simp))
      ((t.flatMap fun p => Tok.invar p.1 :: encMat p.2) ++ ts)
    have h2 := ih (fun p' hp' => h p' (by simp [hp'])) ts
    have hm : ((p :: t).flatMap (fun p => Tok.invar p.1 :: encMat p.2) ++ ts) =
        Tok.invar p.1 :: (encMat p.2 ++
          ((t.flatMap fun p => Tok.invar p.1 :: encMat p.2) ++ ts)) := by
      simp [List.flatMap_cons, List.append_assoc]
    rw [hm]
    show (decMat (encMat p.2 ++
        ((t.flatMap fun p => Tok.invar p.1 :: encMat p.2) ++ ts))).bind
        (fun m => (decDensEntries t.length m.2).bind fun r =>
          some ((p.1, m.1) :: r.1, r.2)) = some (p :: t, ts)
    rw [h1]
    show (decDensEntries t.length
        ((t.flatMap fun p => Tok.invar p.1 :: encMat p.2) ++ ts)).bind
        (fun r => some ((p.1, p.2) :: r.1, r.2)) = some (p :: t, ts)
    rw [h2]
    rfl

theorem decDensMat_enc (l : List (List ℤ × List (List ℚ)))
    (hwf : ∀ p ∈ l, ∀ r ∈ p.2, r.length = (p.2.headD []).length) :
    decDensMat (encDensMat l) = some (l, []) := by
  have := decDensEntries_enc l hwf []
  rw [List.append_nil] at this
  simpa [encDensMat, decDensMat] using this

theorem insertSorted_append {V : Type} (lt : List ℤ → List ℤ → Bool)
    (asym : ∀ a b, lt a b = true → lt b a = false) (k : List ℤ) (v : V) :
    ∀ (m : List (List ℤ × V)), (∀ p ∈ m, lt p.1 k = true) →
      insertSorted lt k v m = m ++ [(k, v)] := by
  intro m
  induction m with
  | nil => intro _; rfl
  | cons q t ih =>
    intro h
    have h1 : lt q.1 k = true := h q (by simp)
    have h2 : lt k q.1 = false := asym q.1 k h1
    simp only [insertSorted, h2, h1, Bool.false_eq_true, if_false, if_true,
      List.cons_append]
    rw [ih (fun p hp => h p (by simp [hp]))]

theorem foldl_insertSorted {V : Type} (lt : List ℤ → List ℤ → Bool)
    (asym : ∀ a b, lt a b = true → lt b a = false) :
    ∀ (l acc : List (List ℤ × V)),
      List.Pairwise (fun p q => lt p.1 q.1 = true) l →
      (∀ p ∈ acc, ∀ q ∈ l, lt p.1 q.1 = true) →
      l.foldl (fun m p => insertSorted lt p.1 p.2 m) acc = acc ++ l := by
  intro l
  induction l with
  | nil => intro acc _ _; simp
  | cons q t ih =>
    intro acc hp hcross
    simp only [List.foldl_cons]
    rw [insertSorted_append lt asym q.1 q.2 acc
      (fun p hp' => hcross p hp' q (by simp))]
    rw [ih (acc ++ [q]) (List.pairwise_cons.mp hp).2 ?_]
    · simp
    · intro p hp' r hr
      rcases List.mem_append.mp hp' with h | h
      · exact hcross p h r (by simp [hr])
      · have hq : p = q := by simpa using h
        subst hq
        exact (List.pairwise_cons.mp hp).1 r hr

theorem mapFromEntries_id {V : Type} (lt : List ℤ → List ℤ → Bool)
    (asym : ∀ a b, lt a b = true → lt b a = false)
    (l : List (List ℤ × V))
    (hp : List.Pairwise (fun p q => lt p.1 q.1 = true) l) :
    mapFromEntries lt l = l := by
  unfold mapFromEntries
  rw [foldl_insertSorted lt asym l [] hp (by simp)]
  simp

/-- Claim C9: saving the per-step transformations (or density matrices) and
loading them back reconstructs exactly the same map — the same invariant keys
and, per entry, the same original eigenvalues, eigenvector matrix, shifted
eigenvalues, kept count (`nrpost`) and the three absolute-energy arrays
(respectively the same dense matrices); and every I/O failure during save or
load yields an error carrying the file name. -/
theorem claim_C9_persistence_roundtrip (lt : List ℤ → List ℤ → Bool)
    (entries : List (List ℤ × EigenS)) (dens : List (List ℤ × List (List ℚ)))
    (fn fn2 : ℕ)
    (asym : ∀ a b, lt a b = true → lt b a = false)
    (hsorted : List.Pairwise (fun p q => lt p.1 q.1 = true) entries)
    (hwf : ∀ p ∈ entries, ∀ r ∈ p.2.matrix, r.length = (p.2.matrix.headD []).length)
    (hsd : List.Pairwise (fun p q => lt p.1 q.1 = true) dens)
    (hwd : ∀ p ∈ dens, ∀ r ∈ p.2, r.length = (p.2.headD []).length) :
    loadDiagInfo fn lt (some (encDiagInfo entries)) = .ok entries ∧
    loadDensMat fn2 lt (some (encDensMat dens)) = .ok dens ∧
    (∀ c e, loadDiagInfo fn lt c = .error e → e.fn = fn) ∧
    (∀ c e, loadDensMat fn2 lt c = .error e → e.fn = fn2) ∧
    saveDiagInfo fn true entries = .ok (encDiagInfo entries) ∧
    (∀ e, saveDiagInfo fn false entries = .error e → e.fn = fn) := by
  refine ⟨?_, ?_, ?_, ?_, rfl, ?_⟩
  · unfold loadDiagInfo
    dsimp only
    rw [decDiagInfo_enc entries hwf]
    dsimp only
    rw [mapFromEntries_id lt asym entries hsorted]
  · unfold loadDensMat
    dsimp only
    rw [decDensMat_enc dens hwd]
    dsimp only
    rw [mapFromEntries_id lt asym dens hsd]
  · intro c e h
    match c with
    | none =>
      simp only [loadDiagInfo] at h
      cases h
      rfl
    | some ts =>
      simp only [loadDiagInfo] at h
      match hdec : decDiagInfo ts with
      | none =>
        rw [hdec] at h
        cases h
        rfl
      | some d =>
        rw [hdec] at h
        cases h
  · intro c e h
    match c with
    | none =>
      simp only [loadDensMat] at h
      cases h
      rfl
    | some ts =>
      simp only [loadDensMat] at h
      match hdec : decDensMat ts with
      | none =>
        rw [hdec] at h
        cases h
        rfl
      | some d =>
        rw [hdec] at h
        cases h
  · intro e h
    simp only [saveDiagInfo, Bool.false_eq_true, if_false] at h
    cases h
    rfl

/-- Claim C9 witness: a two-subspace store with nontrivial payloads
round-trips exactly, keys ordered by the head of the invariant tuple. -/
theorem claim_C9_witness :
    loadDiagInfo 7 (fun a b => decide (a.headD 0 < b.headD 0))
      (some (encDiagInfo
        [([0], ⟨[1], [[1, 2]], [1], 1, [1], [1], [1]⟩),
         ([1], ⟨[2, 3], [[4, 5], [6, 7]], [2, 3], -1, [2], [3], [4]⟩)])) =
      .ok [([0], ⟨[1], [[1, 2]], [1], 1, [1], [1], [1]⟩),
           ([1], ⟨[2, 3], [[4, 5], [6, 7]], [2, 3], -1, [2], [3], [4]⟩)] :=
  (claim_C9_persistence_roundtrip (fun a b => decide (a.headD 0 < b.headD 0))
    [([0], ⟨[1], [[1, 2]], [1], 1, [1], [1], [1]⟩),
     ([1], ⟨[2, 3], [[4, 5], [6, 7]], [2, 3], -1, [2], [3], [4]⟩)]
    [([2], [[1]])] 7 8
    (fun a b h => by
      simp only [decide_eq_true_eq] at h
      simp only [decide_eq_false_iff_not]
      omega)
    (by decide) (by decide) (by decide) (by decide)).1

/-! #### Real-valued sums -/

theorem list_sum_map_div {α : Type} (l : List α) (f : α → ℝ) (z : ℝ) :
    (l.map (fun x => f x / z)).sum = (l.map f).sum / z := by
  induction l with
  | nil => simp
  | cons a t ih => simp [ih, add_div]

/-- Claim C3 counterexample: `calc_ZnD` accumulates `ds.all() = irange(min(),
max())` with `min() = is_last ? 0 : kept`, i.e. only the DISCARDED states on a
non-final shell — not "all their states": for a shell with one subspace,
`kept = 1`, `total = 2` and vanishing energies, the code computes `ZnDG = 1`
while the claim's all-states reading gives `2`. -/
theorem claim_C3_cex :
    ZnDG 1 [⟨1, 1, 2, fun _ => 0, false⟩] ≠ ZnDG_claim 1 [⟨1, 1, 2, fun _ => 0, false⟩] := by
  have hall : (⟨1, 1, 2, fun _ => 0, false⟩ : DimSubM).allRange = [1] := by decide
  norm_num [ZnDG, ZnDG_claim, hall, List.range_succ, Real.exp_zero]

/-- Claim C3 (amended): `calc_ZnD` computes (in ≥400-bit extended precision,
modelled here by exact reals) `ZnDG[N]` as the multiplicity-weighted sum of
`exp(-absE_G[i]/T)` over each subspace's `all()` range — the discarded states
`[kept, total)`, or all states `[0, total)` on the last shell — then
`ZZG = Σ_N ZnDG[N]·combs^(Nlen-N-1)` and the weights
`wn[N] = (combs^(Nlen-N-1)/ZZG)·ZnDG[N]`; whenever `ZZG ≠ 0` the weights sum
to exactly 1, hence within the checked tolerance 1e-12, so the terminating
assertion `num_equal(sumwn, 1.0)` passes. -/
theorem claim_C3_calc_ZnD (T : ℝ) (combs : ℕ) (dm : AllStepsM)
    (hZ : ZZG T combs dm ≠ 0) :
    sumwn T combs dm = 1 ∧ num_equal (sumwn T combs dm) 1 (1 / 10 ^ 12) := by
  have h1 : dm.Nall.map (wn T combs dm) =
      dm.Nall.map (fun N =>
        (ZnDG T (dm.shells N) * (combs : ℝ) ^ (dm.Nend - N - 1)) / ZZG T combs dm) := by
    apply List.map_congr_left
    intro N _
    rw [wn, div_mul_eq_mul_div, mul_comm]
  have h2 : ZZG T combs dm =
      (dm.Nall.map (fun N =>
        ZnDG T (dm.shells N) * (combs : ℝ) ^ (dm.Nend - N - 1))).sum := rfl
  have hs : sumwn T combs dm = 1 := by
    rw [sumwn, h1, list_sum_map_div, ← h2, div_self hZ]
  refine ⟨hs, ?_⟩
  rw [hs]
  exact Or.inr (Or.inr (by norm_num))

/-- Claim C3 witness: a one-shell store with a single zero-energy state;
`ZZG = 1` and the weight sum is exactly 1. -/
theorem claim_C3_witness :
    sumwn 1 4 ⟨0, 1, fun _ => [⟨1, 0, 1, fun _ => 0, true⟩]⟩ = 1 ∧
    num_equal (sumwn 1 4 ⟨0, 1, fun _ => [⟨1, 0, 1, fun _ => 0, true⟩]⟩) 1
      (1 / 10 ^ 12) :=
  claim_C3_calc_ZnD 1 4 ⟨0, 1, fun _ => [⟨1, 0, 1, fun _ => 0, true⟩]⟩
    (by
      have hall : (⟨1, 0, 1, fun _ => 0, true⟩ : DimSubM).allRange = [0] := by decide
      norm_num [ZZG, ZnDG, AllStepsM.Nall, hall, Real.exp_zero])

/-- Claim C4: the multiplicity-weighted trace of the density matrix built by
`init_rho` at the last site equals 1 exactly (whenever every subspace has all
its stored states kept and some subspace is nonempty with positive
multiplicity), so `check_trace_rho` passes; conversely any trace farther than
1e-8 from 1 fails the `num_equal` test (default precision 1e-12, which is
stricter than the claimed 1e-8) and the run aborts. -/
theorem claim_C4_check_trace_rho (scT : ℝ) (diag : List SubR)
    (hks : ∀ s ∈ diag, s.kept = s.value_zero.length)
    (s0 : SubR) (hs0 : s0 ∈ diag) (hm : 1 ≤ s0.mult) (hnz : s0.value_zero ≠ []) :
    rho_trace scT diag = 1 ∧
    check_trace_rho_passes (rho_trace scT diag) 1 ∧
    (∀ t : ℝ, |t - 1| > 1 / 10 ^ 8 → ¬check_trace_rho_passes t 1) := by
  have hnn4 : ∀ s : SubR, ∀ i ∈ List.range s.value_zero.length,
      (0:ℝ) ≤ (s.mult : ℝ) * Real.exp (-s.value_zero.getD i 0 * scT) := fun s i _ =>
    mul_nonneg (Nat.cast_nonneg _) (le_of_lt (Real.exp_pos _))
  have hden : (diag.map fun s => ((List.range s.value_zero.length).map fun i =>
      (s.mult : ℝ) * Real.exp (-s.value_zero.getD i 0 * scT)).sum).sum =
      grand_canonical_Z scT 1 diag := by
    rw [grand_canonical_Z]
    congr 1
    apply List.map_congr_left
    intro s hs
    rw [hks s hs]
    congr 1
    apply List.map_congr_left
    intro i _
    rw [mul_one]
  have hZpos : 0 < grand_canonical_Z scT 1 diag := by
    rw [← hden]
    have hlen : 0 < s0.value_zero.length := List.length_pos.mpr hnz
    have hterm : (0:ℝ) < ((List.range s0.value_zero.length).map fun i =>
        (s0.mult : ℝ) * Real.exp (-s0.value_zero.getD i 0 * scT)).sum := by
      have hmem : (s0.mult : ℝ) * Real.exp (-s0.value_zero.getD 0 0 * scT) ∈
          (List.range s0.value_zero.length).map fun i =>
            (s0.mult : ℝ) * Real.exp (-s0.value_zero.getD i 0 * scT) :=
        List.mem_map_of_mem _ (List.mem_range.mpr hlen)
      have hge : (0:ℝ) < (s0.mult : ℝ) * Real.exp (-s0.value_zero.getD 0 0 * scT) := by
        have h1 : (0:ℝ) < (s0.mult : ℝ) := by
          exact_mod_cast Nat.lt_of_lt_of_le Nat.zero_lt_one hm
        exact mul_pos h1 (Real.exp_pos _)
      calc (0:ℝ) < (s0.mult : ℝ) * Real.exp (-s0.value_zero.getD 0 0 * scT) := hge
        _ ≤ _ := List.single_le_sum (fun x hx => by
            obtain ⟨i, hi, rfl⟩ := List.mem_map.mp hx
            exact hnn4 s0 i hi) _ hmem
    have houter : ((List.range s0.value_zero.length).map fun i =>
        (s0.mult : ℝ) * Real.exp (-s0.value_zero.getD i 0 * scT)).sum ≤
        (diag.map fun s => ((List.range s.value_zero.length).map fun i =>
          (s.mult : ℝ) * Real.exp (-s.value_zero.getD i 0 * scT)).sum).sum := by
      apply List.single_le_sum (fun x hx => ?_) _ (List.mem_map_of_mem _ hs0)
      obtain ⟨s, hs, rfl⟩ := List.mem_map.mp hx
      exact List.sum_nonneg (fun y hy => by
        obtain ⟨i, hi, rfl⟩ := List.mem_map.mp hy
        exact hnn4 s i hi)
    linarith
  have htr : rho_trace scT diag = 1 := by
    have hnum : rho_trace scT diag =
        (diag.map fun s => ((List.range s.value_zero.length).map fun i =>
          (s.mult : ℝ) * Real.exp (-s.value_zero.getD i 0 * scT)).sum).sum /
          grand_canonical_Z scT 1 diag := by
      rw [rho_trace, ← list_sum_map_div]
      congr 1
      apply List.map_congr_left
      intro s _
      rw [← list_sum_map_div]
      congr 1
      apply List.map_congr_left
      intro i _
      exact (mul_div_assoc _ _ _).symm
    rw [hnum, hden, div_self (ne_of_gt hZpos)]
  refine ⟨htr, ?_, ?_⟩
  · rw [htr]
    exact Or.inr (Or.inr (by norm_num))
  · intro t ht hpass
    rcases hpass with ⟨h0, h1⟩ | ⟨h1, h2⟩ | h3
    · norm_num at h1
    · rw [abs_one] at h2
      norm_num at h2
    · have habs : |t| ≤ |t - 1| + 1 := by
        have hts : t = (t - 1) + 1 := by ring
        calc |t| = |(t - 1) + 1| := by rw [← hts]
          _ ≤ |t - 1| + |1| := abs_add _ _
          _ = |t - 1| + 1 := by rw [abs_one]
      rw [abs_one] at h3
      nlinarith [ht, h3, habs]

/-- Claim C4 witness: a single-subspace, single-state density matrix has unit
trace and passes the check. -/
theorem claim_C4_witness :
    rho_trace 1 [⟨1, [0], 1⟩] = 1 ∧
    check_trace_rho_passes (rho_trace 1 [⟨1, [0], 1⟩]) 1 ∧
    (∀ t : ℝ, |t - 1| > 1 / 10 ^ 8 → ¬check_trace_rho_passes t 1) :=
  claim_C4_check_trace_rho 1 [⟨1, [0], 1⟩]
    (by
      intro s hs
      have : s = ⟨1, [0], 1⟩ := by simpa using hs
      subst this
      rfl)
    ⟨1, [0], 1⟩ (by simp) (by decide) (by simp)

/-- Claim C10: the grand-canonical partition function over kept states is at
least 1: truncation keeps at least one state in any subspace whose lowest
shifted eigenvalue is 0 (the cutoff `Emax` is nonnegative), and the
ground-state subspace then contributes `mult · exp(0) ≥ 1` while every other
term is nonnegative, so the assertion `ZN >= 1.0` never fails. -/
theorem claim_C10_grand_canonical_Z (scT factor : ℝ) (diag : List SubR)
    (s0 : SubR) (hs0 : s0 ∈ diag) (hm : 1 ≤ s0.mult) (hk : 1 ≤ s0.kept)
    (hg : s0.value_zero.getD 0 0 = 0) :
    (∀ (es : List ℚ) (Emax : ℚ), es ≠ [] → es.getD 0 0 = 0 → 0 ≤ Emax →
      1 ≤ es.countP (fun e => decide (e ≤ Emax))) ∧
    1 ≤ grand_canonical_Z scT factor diag := by
  constructor
  · intro es Emax hne h0 hE
    match es with
    | [] => exact absurd rfl hne
    | a :: t =>
      have ha : a = 0 := by simpa using h0
      exact List.countP_pos.mpr ⟨a, by simp, by simp [ha]; exact hE⟩
  · have hnn : ∀ s : SubR, ∀ i ∈ List.range s.kept,
        (0:ℝ) ≤ (s.mult : ℝ) * Real.exp (-s.value_zero.getD i 0 * scT * factor) :=
      fun s i _ => mul_nonneg (Nat.cast_nonneg _) (le_of_lt (Real.exp_pos _))
    have hterm : (1:ℝ) ≤ ((List.range s0.kept).map fun i =>
        (s0.mult : ℝ) * Real.exp (-s0.value_zero.getD i 0 * scT * factor)).sum := by
      have hmem : (s0.mult : ℝ) * Real.exp (-s0.value_zero.getD 0 0 * scT * factor) ∈
          (List.range s0.kept).map fun i =>
            (s0.mult : ℝ) * Real.exp (-s0.value_zero.getD i 0 * scT * factor) :=
        List.mem_map_of_mem _ (List.mem_range.mpr hk)
      have hge : (1:ℝ) ≤ (s0.mult : ℝ) *
          Real.exp (-s0.value_zero.getD 0 0 * scT * factor) := by
        rw [hg]
        norm_num [Real.exp_zero]
        exact_mod_cast hm
      calc (1:ℝ) ≤ _ := hge
        _ ≤ _ := List.single_le_sum (fun x hx => by
            obtain ⟨i, hi, rfl⟩ := List.mem_map.mp hx
            exact hnn s0 i hi) _ hmem
    calc (1:ℝ) ≤ _ := hterm
      _ ≤ grand_canonical_Z scT factor diag := by
        apply List.single_le_sum (fun x hx => ?_) _ (List.mem_map_of_mem _ hs0)
        obtain ⟨s, hs, rfl⟩ := List.mem_map.mp hx
        exact List.sum_nonneg (fun y hy => by
          obtain ⟨i, hi, rfl⟩ := List.mem_map.mp hy
          exact hnn s i hi)

/-- Claim C10 witness: a single subspace holding the ground state at energy 0
with one kept state gives `ZN = 1 ≥ 1`; and a degenerate pair `[0, 0]` keeps
at least one state under cutoff 0. -/
theorem claim_C10_witness :
    (1 ≤ ([(0:ℚ), 0].countP (fun e => decide (e ≤ (0:ℚ))))) ∧
    1 ≤ grand_canonical_Z 1 1 [⟨1, [0], 1⟩] :=
  ⟨(claim_C10_grand_canonical_Z 1 1 [⟨1, [0], 1⟩] ⟨1, [0], 1⟩ (by simp)
      (by decide) (by decide) (by simp)).1 [0, 0] 0 (by simp) (by simp) (by norm_num),
   (claim_C10_grand_canonical_Z 1 1 [⟨1, [0], 1⟩] ⟨1, [0], 1⟩ (by simp)
      (by decide) (by decide) (by simp)).2⟩

end Nrg
